import Mathlib

/-!
Verification development for the `Frequency` corpus-statistics program
(`FreqHash.c` and `frequency.c`).

The C sources are shallowly embedded:

* `size_t` arithmetic is `Nat` with an explicit `% 2 ^ 64` at every site where
  the C computation can wrap (the DJB2 hash, the bit-smearing
  `next_power_of_2`, the `count * 100 > length * 75` load comparison, the
  `sizeof(Bucket) * next_size(length)` capacity computation, and the stored
  item count);
* `double` values are modelled as exact rationals `ℚ`; the `(long)` narrowing
  performed by `hash_get` is truncation toward zero on `ℚ`;
* fallible or undefined behaviour (out-of-bounds array access, the
  out-of-bounds bucket-growth write, exhaustion of the recursion fuel that
  stands in for C's unbounded loops) is an `Option` `none`;
* the POSIX regex engine is an external collaborator and is abstracted as a
  function from the NUL-terminated string handed to `regexec` to a match
  result.
-/

/-! ### FreqHash.c: constants and helpers -/

/-- The wrap-around modulus of 64-bit `size_t` arithmetic. -/
def U64 : Nat := 2 ^ 64

/-- The macro `#define DEFAULT_CAPACITY 10` in FreqHash.c. -/
def DEFAULT_CAPACITY : Nat := 10

/-- The macro `#define RESIZE_MIN 16` in FreqHash.c. -/
def RESIZE_MIN : Nat := 16

/-- The value of `sizeof(Bucket)` on an LP64 platform: a `Pair *` pointer (8 bytes) plus a
`size_t` length (8 bytes).  `hash_resize` multiplies by this value when it
computes the capacity it passes to `hash_init_capacity`. -/
def sizeofBucket : Nat := 16

/-- One step of `hash_function`'s loop `x = 33*x + *key`, in 64-bit `size_t`
arithmetic.  `*key` is a (signed) `char`: bytes at or above 128 are
sign-extended before being added to `x`. -/
def hash_step (x c : Nat) : Nat :=
  (33 * x + (if c < 128 then c else 2 ^ 64 - 256 + c)) % U64

/-- The function `hash_function` from FreqHash.c: a DJB2-style rolling hash over the bytes
of the NUL-terminated key, seeded at 5381.  Keys are byte lists that contain
no 0 byte. -/
def hash_function (key : List Nat) : Nat :=
  key.foldl hash_step 5381

/-- The function `next_power_of_2` from FreqHash.c: the bit-smearing trick followed by
`+ 1`, in 64-bit arithmetic (so an input at or above `2 ^ 63` wraps to 0). -/
def next_power_of_2 (x : Nat) : Nat :=
  let x := x ||| (x >>> 1)
  let x := x ||| (x >>> 2)
  let x := x ||| (x >>> 4)
  let x := x ||| (x >>> 8)
  let x := x ||| (x >>> 16)
  let x := x ||| (x >>> 32)
  (x + 1) % U64

/-- The function `next_size` from FreqHash.c. -/
def next_size (x : Nat) : Nat :=
  if x < RESIZE_MIN then RESIZE_MIN else next_power_of_2 x

/-- The function `resize_p` from FreqHash.c: true iff `x ≥ RESIZE_MIN` and `x` is a power
of two. -/
def resize_p (x : Nat) : Bool :=
  RESIZE_MIN ≤ x && (x &&& (x - 1)) == 0

/-! ### FreqHash.c: data model -/

/-- A key/value `Pair`.  The key is the byte sequence of a NUL-terminated C
string (hence free of 0 bytes); the value is the stored `double`. -/
structure Pair where
  key : List Nat
  value : ℚ
  deriving DecidableEq, Repr

/-- A `Bucket`.  `none` models an unallocated bucket (`pairs == NULL`);
`some ps` models an allocated bucket whose live entries (indices
`0 .. length-1`) are `ps`.  The capacity slack beyond `length` is never read
on any defined path, so it is not represented. -/
abbrev Bucket : Type := Option (List Pair)

/-- The `Hash` structure: the bucket array and the stored item count.  The C
`length` field always equals the length of the bucket array and is represented
by `buckets.length`. -/
structure Hash where
  buckets : List Bucket
  count : Nat
  deriving DecidableEq

/-- The function `hash_init_capacity`: allocate `next_size capacity` zeroed buckets
(`hash_malloc` zero-fills, so every bucket starts with `pairs == NULL`). -/
def hash_init_capacity (capacity : Nat) : Hash :=
  { buckets := List.replicate (next_size capacity) none, count := 0 }

/-- The function `hash_init`: `hash_init_capacity` at `DEFAULT_CAPACITY`. -/
def hash_init : Hash :=
  hash_init_capacity DEFAULT_CAPACITY

/-! ### FreqHash.c: bucket scans -/

/-- The bucket scan shared by `hash_get`/`hash_exists`/`hash_inc`/`hash_put`:
find the first pair whose key compares `strcmp`-equal and return its value. -/
def bucket_find : List Pair → List Nat → Option ℚ
  | [], _ => none
  | p :: ps, k => if p.key = k then some p.value else bucket_find ps k

/-- The in-place update performed by `hash_put` when the key is already in the
bucket: overwrite the first matching pair's value.  Returns `none` when the
key is absent (the C loop falls through to the append path). -/
def bucket_overwrite : List Pair → List Nat → ℚ → Option (List Pair)
  | [], _, _ => none
  | p :: ps, k, v =>
    if p.key = k then some ({ key := p.key, value := v } :: ps)
    else (bucket_overwrite ps k v).map (p :: ·)

/-- The in-place update performed by `hash_inc` when the key is already in the
bucket: add `v` to the first matching pair's value. -/
def bucket_addto : List Pair → List Nat → ℚ → Option (List Pair)
  | [], _, _ => none
  | p :: ps, k, v =>
    if p.key = k then some ({ key := p.key, value := p.value + v } :: ps)
    else (bucket_addto ps k v).map (p :: ·)

/-- Lookup of a key's stored value: locate the slot `hash_function(key) mod
length`, then scan that bucket.  This is the lookup shared by `hash_get` and
`hash_exists`.  An out-of-range slot index (possible only when the bucket
array is empty, i.e. on an uninitialised map) yields `none`. -/
def hash_findQ (h : Hash) (key : List Nat) : Option ℚ :=
  match h.buckets[hash_function key % h.buckets.length]? with
  | none => none
  | some none => none
  | some (some ps) => bucket_find ps key

/-- The function `hash_exists` from FreqHash.c: nonzero (here `true`) iff the key is found. -/
def hash_exists (h : Hash) (key : List Nat) : Bool :=
  (hash_findQ h key).isSome

/-- The `(long)` conversion applied by `hash_get`'s `return` to the stored
`double`: truncation toward zero. -/
def double_to_long (q : ℚ) : Int :=
  q.num.tdiv q.den

/-- The function `hash_get` from FreqHash.c: the stored value narrowed to `long`, or `-1`
when the key is not found. -/
def hash_get (h : Hash) (key : List Nat) : Int :=
  match hash_findQ h key with
  | some v => double_to_long v
  | none => -1

/-! ### FreqHash.c: insertion and resize

`hash_put` and `hash_inc` are textually identical except for the action taken
when the key is already present (overwrite vs. accumulate), so they share one
body parameterised by that action.  `hash_resize` calls `hash_put`, and
`hash_put`'s load-factor trigger calls `hash_resize`; this mutual recursion is
modelled with a structural fuel parameter: `hash_ops (fuel+1)` builds the
put/inc/resize triple whose resize re-inserts entries using the fuel-`fuel`
`put`.  Exhausted fuel is `none`; any sufficiently large fuel computes the
C result. -/

/-- Shared body of `hash_put` and `hash_inc`.  `upd` is the already-present
action (`bucket_overwrite` for put, `bucket_addto` for inc); `resize` is the
rehash invoked when the insertion pushes the load factor beyond 0.75.

When the append path finds `resize_p` true for the current bucket length, the
C code reallocates the bucket, advances `j` to the new capacity in the
slack-clearing loop, and then writes `pairs[j]` one past the end of the new
allocation — undefined behaviour, modelled as `none`. -/
def hash_upd_body (upd : List Pair → List Nat → ℚ → Option (List Pair))
    (resize : Hash → Option Hash) (h : Hash) (key : List Nat) (value : ℚ) :
    Option Hash :=
  let i := hash_function key % h.buckets.length
  match h.buckets[i]? with
  | none => none
  | some (some ps) =>
    match upd ps key value with
    | some ps2 => some { h with buckets := h.buckets.set i (some ps2) }
    | none =>
      if resize_p ps.length then none
      else
        let h2 : Hash := { buckets := h.buckets.set i (some (ps ++ [⟨key, value⟩])),
                           count := (h.count + 1) % U64 }
        if (h2.count * 100) % U64 > (h2.buckets.length * 75) % U64 then resize h2
        else some h2
  | some none =>
    let h2 : Hash := { buckets := h.buckets.set i (some [⟨key, value⟩]),
                       count := (h.count + 1) % U64 }
    if (h2.count * 100) % U64 > (h2.buckets.length * 75) % U64 then resize h2
    else some h2

/-- The put/inc/resize triple at each fuel level.  At level `fuel + 1`,
`hash_resize` builds a fresh map at capacity
`sizeof(Bucket) * next_size(length)` (64-bit product) and re-inserts every
live entry, bucket by bucket in index order, with the level-`fuel` `hash_put`;
`hash_put`/`hash_inc` at level `fuel + 1` trigger that same resize. -/
def hash_ops : Nat →
    (Hash → List Nat → ℚ → Option Hash) × (Hash → List Nat → ℚ → Option Hash) ×
      (Hash → Option Hash)
  | 0 => (fun _ _ _ => none, fun _ _ _ => none, fun _ => none)
  | fuel + 1 =>
    let put := (hash_ops fuel).1
    let resize : Hash → Option Hash := fun h =>
      let res := hash_init_capacity ((sizeofBucket * next_size h.buckets.length) % U64)
      h.buckets.foldl
        (fun acc b =>
          match b with
          | none => acc
          | some ps => ps.foldl (fun acc2 p => acc2.bind fun r => put r p.key p.value) acc)
        (some res)
    (hash_upd_body bucket_overwrite resize, hash_upd_body bucket_addto resize, resize)

/-- The function `hash_put` from FreqHash.c, at a given fuel. -/
def hash_putF (fuel : Nat) : Hash → List Nat → ℚ → Option Hash :=
  (hash_ops fuel).1

/-- The function `hash_inc` from FreqHash.c, at a given fuel. -/
def hash_incF (fuel : Nat) : Hash → List Nat → ℚ → Option Hash :=
  (hash_ops fuel).2.1

/-- The function `hash_resize` from FreqHash.c, at a given fuel. -/
def hash_resizeF (fuel : Nat) : Hash → Option Hash :=
  (hash_ops fuel).2.2

/-! ### frequency.c: constants and character classification -/

/-- The macro `#define MAX_WORD_LEN 1000` in frequency.c. -/
def MAX_WORD_LEN : Nat := 1000

/-- The function `tolower` in the C locale: ASCII upper-case letters map to lower case. -/
def c_tolower (c : Nat) : Nat :=
  if 65 ≤ c ∧ c ≤ 90 then c + 32 else c

/-- The function `filter_chars` from frequency.c: lower-case every byte of the
NUL-terminated string at the head of the buffer (its extent is found with
`strlen`, so bytes after the first NUL are untouched). -/
def filter_chars (buf : List Nat) : List Nat :=
  (buf.takeWhile (· ≠ 0)).map c_tolower ++ buf.dropWhile (· ≠ 0)

/-- The predicate `isprint` in the C locale: ASCII 32..126.  Bytes at or above 128 are
negative as `char` and are not printable. -/
def c_isprint (c : Nat) : Bool :=
  32 ≤ c && c ≤ 126

/-- The predicate `isalnum` in the C locale: ASCII digits and letters. -/
def c_isalnum (c : Nat) : Bool :=
  (48 ≤ c && c ≤ 57) || (65 ≤ c && c ≤ 90) || (97 ≤ c && c ≤ 122)

/-- The function `legal_chars` from frequency.c: every byte of the candidate key is
printable, a newline, or a tab. -/
def legal_chars (s : List Nat) : Bool :=
  s.all (fun c => c_isprint c || c == 10 || c == 9)

/-! ### frequency.c: the abstract matcher -/

/-- The result of one `regexec` call with `nmatch = 2`: a successful match
reports the spans `matchptr[0]` (whole match) and `matchptr[1]` (first
capturing group; a group that did not participate reports an empty span), as
byte offsets relative to the string handed to `regexec`.  `REG_NOMATCH` and
`REG_ESPACE` are the two failure outcomes `freq_scan` distinguishes. -/
inductive RegRes where
  | found (so eo so1 eo1 : Nat)
  | nomatch
  | espace
  deriving DecidableEq

/-- The regex engine, abstracted: a compiled pattern applied to the
NUL-terminated string starting at `buffer + i`. -/
def Matcher : Type := List Nat → RegRes

/-- The NUL-terminated C string starting at offset `i` of the buffer: the
bytes from `i` up to (excluding) the first 0 byte. -/
def cstr_at (buf : List Nat) (i : Nat) : List Nat :=
  (buf.drop i).takeWhile (· ≠ 0)

/-! ### frequency.c: freq_hash_inc and freq_scan -/

/-- The function `freq_hash_inc` from frequency.c, acting at match offset `off` of the
buffer.  If the first capturing group has a non-empty span the key is that
subrange, otherwise the whole match span.  A key containing an illegal byte is
discarded (`return 0`, no insertion).  Otherwise the byte after the key is
saved, overwritten with NUL, the key is handed to `hash_inc`, and the byte is
restored — a net no-op on the buffer, but reading it out of bounds is
undefined behaviour (`none`), as is reading key bytes out of bounds. -/
def freq_hash_incF (hfuel : Nat) (h : Hash) (buf : List Nat) (off : Nat)
    (value : ℚ) (so eo so1 eo1 : Nat) : Option Hash :=
  let st := if so1 ≠ eo1 then off + so1 else off + so
  let len := if so1 ≠ eo1 then eo1 - so1 else eo - so
  let seq := (buf.drop st).take len
  if seq.length ≠ len then none
  else if ¬ legal_chars seq then some h
  else
    match buf[st + len]? with
    | none => none
    | some _ => hash_incF hfuel h seq value

/-- The per-match state update of `freq_scan`'s loop body: with no target map
(`hash == NULL`, the counting pass) nothing happens; otherwise
`freq_hash_inc` runs against the capped buffer `buf1`. -/
def scan_update (hfuel : Nat) (oh : Option Hash) (buf1 : List Nat) (i : Nat)
    (adj : ℚ) (so eo so1 eo1 : Nat) : Option (Option Hash) :=
  match oh with
  | none => some none
  | some h => (freq_hash_incF hfuel h buf1 i adj so eo so1 eo1).map some

/-- The loop of `freq_scan` from frequency.c, from scan position `i` with
`matches` successes so far.  Each iteration saves the byte at
`i + MAX_WORD_LEN`, overwrites it with NUL to cap the window, runs the
matcher on the string at `buffer + i`, and then:

* on a match, updates the map, restores the saved byte, and advances by
  `matchstart + 1` (overlap mode) or to the match end (non-overlap mode);
* on `REG_ESPACE`, returns `-4` — without restoring the saved byte;
* on no match, leaves the loop — also without restoring the saved byte.

The unconditional access at `i + MAX_WORD_LEN` is out of bounds whenever the
allocation does not extend past that offset (`none`).  The fuel bounds the
number of iterations; the C loop can even diverge (a zero-length match in
non-overlap mode), which no fuel survives.  The result is the final map, the
final buffer, and the C return value (`matches` for the counting pass, `0`
for a populating pass, `-4` on `REG_ESPACE`). -/
def freq_scanAux (m : Matcher) (overlap : Bool) (adj : ℚ) (len hfuel : Nat) :
    Nat → Option Hash → List Nat → Nat → Nat → Option (Option Hash × List Nat × Int)
  | 0, _, _, _, _ => none
  | fuel + 1, oh, buf, i, nmatches =>
    if i < len then
      match buf[i + MAX_WORD_LEN]? with
      | none => none
      | some holder =>
        let buf1 := buf.set (i + MAX_WORD_LEN) 0
        match m (cstr_at buf1 i) with
        | RegRes.found so eo so1 eo1 =>
          match scan_update hfuel oh buf1 i adj so eo so1 eo1 with
          | none => none
          | some oh2 =>
            let buf2 := buf1.set (i + MAX_WORD_LEN) holder
            let i2 := if overlap then i + so + 1 else i + eo
            freq_scanAux m overlap adj len hfuel fuel oh2 buf2 i2 (nmatches + 1)
        | RegRes.espace => some (oh, buf1, -4)
        | RegRes.nomatch => some (oh, buf1, if oh.isNone then (nmatches : Int) else 0)
    else some (oh, buf, if oh.isNone then (nmatches : Int) else 0)

/-- The function `freq_scan` from frequency.c: the loop started at offset 0. -/
def freq_scan (m : Matcher) (fuel hfuel : Nat) (oh : Option Hash)
    (buf : List Nat) (len : Nat) (overlap : Bool) (adj : ℚ) :
    Option (Option Hash × List Nat × Int) :=
  freq_scanAux m overlap adj len hfuel fuel oh buf 0 0

/-! ### frequency.c: freq_read_file -/

/-- The test `strchr(s, c) != NULL` for a non-NUL `c`: the byte occurs in the
NUL-terminated string. -/
def c_strchr_found (s : List Nat) (c : Nat) : Bool :=
  (s.takeWhile (· ≠ 0)).contains c

/-- The overlap-mode selection of `freq_read_file`: overlap scanning unless
the pattern contains a `+` (43) or `*` (42) quantifier. -/
def frf_overlap (regex : List Nat) : Bool :=
  !(c_strchr_found regex 43 || c_strchr_found regex 42)

/-- The C expression `(double) multiplier / count`.  IEEE division by zero
produces an infinity, which the exact-rational model cannot represent, so a
zero divisor is `none`; every other quotient is exact. -/
def c_double_div (a b : ℚ) : Option ℚ :=
  if b = 0 then none else some (a / b)

/-- The computational core of `freq_read_file` from frequency.c, after its
two external collaborators (`regcomp`, modelled by the abstract matcher, and
`read_file`, which supplies `buf`/`len`).  It selects the overlap mode from
the pattern text, lower-cases the buffer, runs a counting pass, divides the
multiplier by the returned count — unconditionally, even when that count is
`0` (no matches) or `-4` (`REG_ESPACE`) — runs the populating pass at the
resulting per-match weight on the buffer as the first pass left it, and
returns the local `matches`, which is initialised to 0 and never updated. -/
def freq_read_file_core (m : Matcher) (fuel hfuel : Nat) (h : Hash)
    (buf : List Nat) (len : Nat) (regex : List Nat) (multiplier : Int) :
    Option (Hash × Int) :=
  let overlap := frf_overlap regex
  let buf0 := filter_chars buf
  match freq_scan m fuel hfuel none buf0 len overlap 1 with
  | none => none
  | some (_, buf1, count) =>
    match c_double_div (multiplier : ℚ) (count : ℚ) with
    | none => none
    | some adjusted_multiplier =>
      match freq_scan m fuel hfuel (some h) buf1 len overlap adjusted_multiplier with
      | none => none
      | some (oh2, _, _) => some (oh2.getD h, 0)

/-! ### frequency.c: find_n_words_for_file -/

/-- The word-skipping loop `while (i < length && !isalnum(buffer[i])) ++i`,
expressed on the first `len` bytes of the buffer. -/
def skip_sep (buf : List Nat) (len i : Nat) : Nat :=
  i + (((buf.take len).drop i).takeWhile (fun c => !c_isalnum c)).length

/-- The word-consuming loop `while (i < length && (isalnum(buffer[i]) ||
buffer[i] == '\'')) words[j++] = buffer[i++]`: the consumed characters. -/
def scan_word (buf : List Nat) (len i : Nat) : List Nat :=
  ((buf.take len).drop i).takeWhile (fun c => c_isalnum c || c == 39)

/-- The inner `for (k = 0; i < length && k < wordcount; ++k)` loop of
`find_n_words_for_file`, with `n = wordcount - k` iterations remaining.
State: `k`, the scan position `i`, the accumulated `words` array contents,
and `next_i` (the restart position, set at the end of the `k = 0`
iteration).  Returns the final `(k, i, words, next_i)`. -/
def ngram_window (buf : List Nat) (len wordcount : Nat) :
    Nat → Nat → Nat → List Nat → Nat → Nat × Nat × List Nat × Nat
  | 0, k, i, words, next_i => (k, i, words, next_i)
  | n + 1, k, i, words, next_i =>
    if i < len then
      let i1 := skip_sep buf len i
      let words1 := if 0 < k then words ++ [32] else words
      if i1 < len ∧ c_isalnum ((buf.take len).getD i1 0) then
        let w := scan_word buf len i1
        let i2 := i1 + w.length
        -- if (buffer[i-1] == '\'') { --i; --j; }
        let trim := buf.getD (i2 - 1) 0 == 39
        let w2 := if trim then w.dropLast else w
        let i3 := if trim then i2 - 1 else i2
        let next_i2 := if k = 0 then i3 else next_i
        ngram_window buf len wordcount n (k + 1) i3 (words1 ++ w2) next_i2
      else
        let next_i2 := if k = 0 then i1 else next_i
        ngram_window buf len wordcount n (k + 1) i1 words1 next_i2
    else (k, i, words, next_i)

/-- The outer `while (i < length)` loop of `find_n_words_for_file`: collect a
window of `wordcount` words starting at `next_i`; if the inner loop completed
all `wordcount` iterations, insert the space-joined window with `hash_inc`
and continue, else stop.  The fuel bounds the number of windows. -/
def ngram_loop (buf : List Nat) (len wordcount : Nat) (mult : ℚ) (hfuel : Nat) :
    Nat → Nat → Nat → Hash → Option Hash
  | 0, _, _, _ => none
  | fuel + 1, i, next_i, h =>
    if i < len then
      match ngram_window buf len wordcount wordcount 0 next_i [] next_i with
      | (k, i2, words, next_i2) =>
        if k = wordcount then
          match hash_incF hfuel h words mult with
          | none => none
          | some h2 => ngram_loop buf len wordcount mult hfuel fuel i2 next_i2 h2
        else some h
    else some h

/-- The computational core of `find_n_words_for_file` from frequency.c, after
`read_file`: lower-case the buffer, then run the window loop from
`i = next_i = 0`. -/
def find_n_words_core (buf : List Nat) (len wordcount : Nat) (mult : ℚ)
    (hfuel fuel : Nat) (h : Hash) : Option Hash :=
  ngram_loop (filter_chars buf) len wordcount mult hfuel fuel 0 0 h

/-! ### Well-formedness invariants for the hash table

`wfCore` is the structural invariant of every table the program builds:
every entry sits in the bucket its hash selects, keys are unique within a
bucket, the stored `count` is the number of live entries, and the slot count
is one of the sizes actually reachable through `hash_init` /`hash_resize`
(powers of 64 times 16, up to the size at which the 64-bit capacity
computation in `hash_resize` wraps and the program stops functioning).
`loadOk` is the load-factor bound maintained between insertions. -/

/-- The number of live entries of a bucket. -/
def bSize (b : Bucket) : Nat := (b.getD []).length

/-- The total number of live entries of a bucket array. -/
def sizeSum (bs : List Bucket) : Nat := (bs.map bSize).sum

/-- All live entries of a bucket array, in bucket order — exactly the order
`hash_resize`'s nested loops visit them. -/
def entriesOf (bs : List Bucket) : List Pair := (bs.map (fun b => b.getD [])).flatten

/-- Well-formedness of one bucket at slot `i` of a table with `L` slots:
every entry hashes to slot `i`, and keys are unique. -/
def bucketWF (L i : Nat) : Bucket → Prop
  | none => True
  | some ps => (∀ p ∈ ps, hash_function p.key % L = i) ∧ (ps.map Pair.key).Nodup

instance bucketWF.dec (L i : Nat) (b : Bucket) : Decidable (bucketWF L i b) := by
  unfold bucketWF; cases b <;> infer_instance

/-- Well-formedness of the bucket array from slot `s` on. -/
def bucketsWF (L : Nat) : Nat → List Bucket → Prop
  | _, [] => True
  | s, b :: bs => bucketWF L s b ∧ bucketsWF L (s + 1) bs

instance bucketsWF.dec (L : Nat) : (s : Nat) → (bs : List Bucket) → Decidable (bucketsWF L s bs)
  | _, [] => isTrue trivial
  | s, _ :: bs => @instDecidableAnd _ _ _ (bucketsWF.dec L (s + 1) bs)

/-- The slot counts reachable by `hash_init`/`hash_resize`: `16 * 64 ^ j`
(that is, `2 ^ (4 + 6 j)`) for `j ≤ 9`.  At `2 ^ 58` slots the next resize's
`next_size (sizeof(Bucket) * next_size length)` computation wraps to 0 and no
further table can be built. -/
def hashSizes : List Nat :=
  [16, 1024, 65536, 4194304, 268435456, 17179869184, 1099511627776,
   70368744177664, 4503599627370496, 288230376151711744]

/-- Structural well-formedness of a table. -/
def wfCore (h : Hash) : Prop :=
  bucketsWF h.buckets.length 0 h.buckets ∧ h.count = sizeSum h.buckets ∧
    h.buckets.length ∈ hashSizes

instance wfCore.dec (h : Hash) : Decidable (wfCore h) := by
  unfold wfCore; infer_instance

/-- The steady-state load-factor bound: `count * 100` is at most the value of
the 64-bit expression `length * 75`.  (For every reachable slot count except
`2 ^ 58` the product does not wrap and this is the plain `≤ 0.75` bound.) -/
def loadOk (h : Hash) : Prop :=
  h.count * 100 ≤ (h.buckets.length * 75) % U64

instance loadOk.dec (h : Hash) : Decidable (loadOk h) := by
  unfold loadOk; infer_instance

/-- The full invariant between insertions. -/
def HInv (h : Hash) : Prop := wfCore h ∧ loadOk h

instance HInv.dec (h : Hash) : Decidable (HInv h) := by
  unfold HInv; infer_instance

/-! ### Unfolding equations for the fuelled operations -/

theorem hash_putF_zero (h : Hash) (k : List Nat) (v : ℚ) :
    hash_putF 0 h k v = none := rfl

theorem hash_incF_zero (h : Hash) (k : List Nat) (v : ℚ) :
    hash_incF 0 h k v = none := rfl

theorem hash_resizeF_zero (h : Hash) : hash_resizeF 0 h = none := rfl

theorem hash_putF_succ (f : Nat) :
    hash_putF (f + 1) = hash_upd_body bucket_overwrite (hash_resizeF (f + 1)) := rfl

theorem hash_incF_succ (f : Nat) :
    hash_incF (f + 1) = hash_upd_body bucket_addto (hash_resizeF (f + 1)) := rfl

theorem hash_resizeF_succ (f : Nat) (h : Hash) :
    hash_resizeF (f + 1) h =
      h.buckets.foldl
        (fun acc b =>
          match b with
          | none => acc
          | some ps =>
            ps.foldl (fun acc2 p => acc2.bind fun r => hash_putF f r p.key p.value) acc)
        (some (hash_init_capacity ((sizeofBucket * next_size h.buckets.length) % U64))) := rfl

/-! ### Bucket-level lemmas -/

theorem bucket_find_eq_none_iff (ps : List Pair) (k : List Nat) :
    bucket_find ps k = none ↔ ∀ p ∈ ps, p.key ≠ k := by
  induction ps with
  | nil => simp [bucket_find]
  | cons p ps ih =>
    by_cases hk : p.key = k <;> simp [bucket_find, hk, ih]

theorem bucket_find_isSome_iff (ps : List Pair) (k : List Nat) :
    (bucket_find ps k).isSome ↔ ∃ p ∈ ps, p.key = k := by
  rw [← Decidable.not_iff_not]
  simp [Option.isSome_iff_ne_none, bucket_find_eq_none_iff]

theorem bucket_find_append (ps qs : List Pair) (k : List Nat) :
    bucket_find (ps ++ qs) k =
      match bucket_find ps k with
      | some v => some v
      | none => bucket_find qs k := by
  induction ps with
  | nil => simp [bucket_find]
  | cons p ps ih =>
    by_cases hk : p.key = k <;> simp [bucket_find, hk, ih]

theorem bucket_overwrite_eq_none_iff (ps : List Pair) (k : List Nat) (v : ℚ) :
    bucket_overwrite ps k v = none ↔ bucket_find ps k = none := by
  induction ps with
  | nil => simp [bucket_overwrite, bucket_find]
  | cons p ps ih =>
    by_cases hk : p.key = k <;> simp [bucket_overwrite, bucket_find, hk, ih]

theorem bucket_addto_eq_none_iff (ps : List Pair) (k : List Nat) (v : ℚ) :
    bucket_addto ps k v = none ↔ bucket_find ps k = none := by
  induction ps with
  | nil => simp [bucket_addto, bucket_find]
  | cons p ps ih =>
    by_cases hk : p.key = k <;> simp [bucket_addto, bucket_find, hk, ih]

theorem bucket_overwrite_spec (ps : List Pair) (k : List Nat) (v : ℚ)
    (ps2 : List Pair) (hup : bucket_overwrite ps k v = some ps2) :
    bucket_find ps2 k = some v ∧
      (∀ k2, k2 ≠ k → bucket_find ps2 k2 = bucket_find ps k2) ∧
      ps2.map Pair.key = ps.map Pair.key := by
  induction ps generalizing ps2 with
  | nil => simp [bucket_overwrite] at hup
  | cons p ps ih =>
    by_cases hk : p.key = k
    · simp only [bucket_overwrite, if_pos hk] at hup
      replace hup := Option.some.inj hup
      subst hup
      refine ⟨by simp only [bucket_find, if_pos hk], fun k2 hk2 => ?_, by simp [hk]⟩
      have hpk2 : ¬ p.key = k2 := fun hcontra => hk2 (by rw [← hcontra, hk])
      simp only [bucket_find, if_neg hpk2]
    · simp only [bucket_overwrite, if_neg hk, Option.map_eq_some'] at hup
      obtain ⟨qs, hqs, rfl⟩ := hup
      obtain ⟨h1, h2, h3⟩ := ih qs hqs
      refine ⟨by simp only [bucket_find, if_neg hk]; exact h1, fun k2 hk2 => ?_,
        by simp [h3]⟩
      by_cases hpk : p.key = k2
      · simp only [bucket_find, if_pos hpk]
      · simp only [bucket_find, if_neg hpk]; exact h2 k2 hk2

theorem bucket_addto_spec (ps : List Pair) (k : List Nat) (v : ℚ)
    (ps2 : List Pair) (hup : bucket_addto ps k v = some ps2) :
    (∃ w, bucket_find ps k = some w ∧ bucket_find ps2 k = some (w + v)) ∧
      (∀ k2, k2 ≠ k → bucket_find ps2 k2 = bucket_find ps k2) ∧
      ps2.map Pair.key = ps.map Pair.key := by
  induction ps generalizing ps2 with
  | nil => simp [bucket_addto] at hup
  | cons p ps ih =>
    by_cases hk : p.key = k
    · simp only [bucket_addto, if_pos hk] at hup
      replace hup := Option.some.inj hup
      subst hup
      refine ⟨⟨p.value, by simp only [bucket_find, if_pos hk],
        by simp only [bucket_find, if_pos hk]⟩, fun k2 hk2 => ?_, by simp [hk]⟩
      have hpk2 : ¬ p.key = k2 := fun hcontra => hk2 (by rw [← hcontra, hk])
      simp only [bucket_find, if_neg hpk2]
    · simp only [bucket_addto, if_neg hk, Option.map_eq_some'] at hup
      obtain ⟨qs, hqs, rfl⟩ := hup
      obtain ⟨⟨w, hw1, hw2⟩, h2, h3⟩ := ih qs hqs
      refine ⟨⟨w, by simp only [bucket_find, if_neg hk]; exact hw1,
        by simp only [bucket_find, if_neg hk]; exact hw2⟩, fun k2 hk2 => ?_,
        by simp [h3]⟩
      by_cases hpk : p.key = k2
      · simp only [bucket_find, if_pos hpk]
      · simp only [bucket_find, if_neg hpk]; exact h2 k2 hk2

/-! ### Bucket-array lemmas -/

theorem bucketsWF_getElem {L : Nat} : ∀ {s : Nat} {bs : List Bucket} (i : Nat),
    bucketsWF L s bs → ∀ b, bs[i]? = some b → bucketWF L (s + i) b := by
  intro s bs
  induction bs generalizing s with
  | nil => intro i _ b hb; simp at hb
  | cons b0 bs ih =>
    intro i hwf b hb
    match i with
    | 0 => simp at hb; subst hb; simp only [Nat.add_zero]; exact hwf.1
    | i + 1 =>
      simp only [List.getElem?_cons_succ] at hb
      have := ih i hwf.2 b hb
      simpa [Nat.add_assoc, Nat.add_comm 1 i] using this

theorem bucketsWF_set {L : Nat} : ∀ {s : Nat} {bs : List Bucket} (i : Nat) (b : Bucket),
    bucketsWF L s bs → bucketWF L (s + i) b → bucketsWF L s (bs.set i b) := by
  intro s bs
  induction bs generalizing s with
  | nil => intro i b _ _; simp [bucketsWF]
  | cons b0 bs ih =>
    intro i b hwf hb
    match i with
    | 0 => exact ⟨by simpa using hb, hwf.2⟩
    | i + 1 =>
      refine ⟨hwf.1, ih i b hwf.2 ?_⟩
      simpa [Nat.add_assoc, Nat.add_comm 1 i] using hb

theorem bucketsWF_getElem0 {L : Nat} {bs : List Bucket} (i : Nat)
    (hwf : bucketsWF L 0 bs) (b : Bucket) (hb : bs[i]? = some b) :
    bucketWF L i b := by
  simpa using bucketsWF_getElem i hwf b hb

theorem bucketsWF_set0 {L : Nat} {bs : List Bucket} (i : Nat) (b : Bucket)
    (hwf : bucketsWF L 0 bs) (hb : bucketWF L i b) :
    bucketsWF L 0 (bs.set i b) :=
  bucketsWF_set i b hwf (by simpa using hb)

theorem bucketsWF_replicate (L : Nat) : ∀ (n s : Nat),
    bucketsWF L s (List.replicate n none) := by
  intro n
  induction n with
  | zero => intro s; simp [bucketsWF]
  | succ n ih => intro s; exact ⟨trivial, ih (s + 1)⟩

theorem sizeSum_set : ∀ (bs : List Bucket) (i : Nat) (b b0 : Bucket),
    bs[i]? = some b0 → sizeSum (bs.set i b) + bSize b0 = sizeSum bs + bSize b := by
  intro bs
  induction bs with
  | nil => intro i b b0 h; simp at h
  | cons bh bs ih =>
    intro i b b0 h
    match i with
    | 0 =>
      simp at h; subst h
      simp [sizeSum]; ring
    | i + 1 =>
      simp only [List.getElem?_cons_succ] at h
      have := ih i b b0 h
      show sizeSum (bh :: bs.set i b) + bSize b0 = sizeSum (bh :: bs) + bSize b
      simp only [sizeSum, List.map_cons, List.sum_cons] at this ⊢
      omega

theorem sizeSum_replicate (n : Nat) : sizeSum (List.replicate n none) = 0 := by
  induction n with
  | zero => rfl
  | succ n ih =>
    rw [List.replicate_succ]
    simp only [sizeSum, List.map_cons, List.sum_cons, bSize, Option.getD_none,
      List.length_nil, Nat.zero_add]
    exact ih

/-! ### Lookup lemmas -/

/-- Lookup in a table whose buckets were produced by `List.set` at the key's
own slot. -/
theorem hash_findQ_set_self (h : Hash) (k : List Nat) (ps : List Pair) (c : Nat)
    (hlt : hash_function k % h.buckets.length < h.buckets.length) :
    hash_findQ { buckets := h.buckets.set (hash_function k % h.buckets.length)
                   (some ps),
                 count := c } k = bucket_find ps k := by
  unfold hash_findQ
  simp only [List.length_set, List.getElem?_set_self hlt]

/-- Lookup of another key after `List.set` at slot `i`: unchanged when the
other key hashes elsewhere. -/
theorem hash_findQ_set_other (h : Hash) (k2 : List Nat) (i : Nat) (b : Bucket)
    (c : Nat) (hne : hash_function k2 % h.buckets.length ≠ i) :
    hash_findQ { buckets := h.buckets.set i b, count := c } k2 = hash_findQ h k2 := by
  unfold hash_findQ
  simp only [List.length_set, List.getElem?_set_ne (Ne.symm hne)]

/-- A table whose bucket array is all-`none` finds nothing. -/
theorem hash_findQ_replicate_none (n c : Nat) (k : List Nat) :
    hash_findQ { buckets := List.replicate n none, count := c } k = none := by
  unfold hash_findQ
  cases h : (List.replicate n (none : Bucket))[hash_function k %
      (List.replicate n (none : Bucket)).length]? with
  | none => rfl
  | some b =>
    have hb : b = none := by
      rw [List.getElem?_replicate] at h
      split at h
      · exact (Option.some.inj h).symm
      · exact absurd h (by simp)
    subst hb
    rfl

theorem hash_findQ_init (k : List Nat) : hash_findQ hash_init k = none :=
  hash_findQ_replicate_none 16 0 k

/-! ### Entries of a table -/

theorem entriesOf_nil : entriesOf [] = [] := rfl

theorem entriesOf_cons (b : Bucket) (bs : List Bucket) :
    entriesOf (b :: bs) = b.getD [] ++ entriesOf bs := by
  simp [entriesOf]

theorem length_entriesOf (bs : List Bucket) : (entriesOf bs).length = sizeSum bs := by
  induction bs with
  | nil => rfl
  | cons b bs ih =>
    rw [entriesOf_cons, List.length_append, ih]
    simp [sizeSum, bSize]

/-- Every entry of a well-formed suffix of the bucket array hashes to a slot
at or beyond the suffix's start index. -/
theorem entriesOf_hash_ge {L : Nat} : ∀ {s : Nat} {bs : List Bucket},
    bucketsWF L s bs → ∀ p ∈ entriesOf bs, s ≤ hash_function p.key % L := by
  intro s bs
  induction bs generalizing s with
  | nil => intro _ p hp; simp [entriesOf_nil] at hp
  | cons b bs ih =>
    intro hwf p hp
    rw [entriesOf_cons, List.mem_append] at hp
    rcases hp with hp | hp
    · match b with
      | none => simp at hp
      | some ps =>
        have := hwf.1.1 p (by simpa using hp)
        omega
    · have := ih hwf.2 p hp
      omega

/-- In a well-formed table the flat entry list has pairwise-distinct keys. -/
theorem entriesOf_keys_nodup {L : Nat} : ∀ {s : Nat} {bs : List Bucket},
    bucketsWF L s bs → ((entriesOf bs).map Pair.key).Nodup := by
  intro s bs
  induction bs generalizing s with
  | nil => simp [entriesOf_nil]
  | cons b bs ih =>
    intro hwf
    rw [entriesOf_cons, List.map_append, List.nodup_append]
    refine ⟨?_, ih hwf.2, ?_⟩
    · match b with
      | none => simp
      | some ps => exact hwf.1.2
    · intro k hk1 hk2
      simp only [List.mem_map] at hk1 hk2
      obtain ⟨p, hp, rfl⟩ := hk1
      obtain ⟨q, hq, hqk⟩ := hk2
      match b with
      | none => simp at hp
      | some ps =>
        have h1 : hash_function p.key % L = s := hwf.1.1 p (by simpa using hp)
        have h2 : s + 1 ≤ hash_function q.key % L := entriesOf_hash_ge hwf.2 q hq
        rw [hqk] at h2
        omega

/-- Entries of a bucket other than the key's own slot never carry the key. -/
theorem bucket_find_of_other_slot {L i : Nat} {b : Bucket} (hwf : bucketWF L i b)
    (k : List Nat) (hne : hash_function k % L ≠ i) :
    bucket_find (b.getD []) k = none := by
  match b with
  | none => simp [bucket_find]
  | some ps =>
    rw [bucket_find_eq_none_iff]
    intro p hp hpk
    exact hne (hpk ▸ hwf.1 p hp)

/-- In a well-formed table, scanning the flat entry list equals the bucketed
lookup. -/
theorem bucket_find_entriesOf {L : Nat} :
    ∀ {s : Nat} {bs : List Bucket}, bucketsWF L s bs →
      ∀ (k : List Nat) (j : Nat), s + j = hash_function k % L →
        ∀ b, bs[j]? = some b → bucket_find (entriesOf bs) k = bucket_find (b.getD []) k := by
  intro s bs
  induction bs generalizing s with
  | nil => intro _ k j _ b hb; simp at hb
  | cons b0 bs ih =>
    intro hwf k j hj b hb
    match j with
    | 0 =>
      simp only [List.getElem?_cons_zero] at hb
      replace hb := Option.some.inj hb
      subst hb
      rw [entriesOf_cons, bucket_find_append]
      have hnone : ∀ p ∈ entriesOf bs, p.key ≠ k := by
        intro p hp hpk
        have := entriesOf_hash_ge hwf.2 p hp
        rw [hpk] at this
        omega
      cases hfind : bucket_find (b0.getD []) k with
      | some v => rfl
      | none =>
        rw [bucket_find_eq_none_iff]
        exact hnone
    | j + 1 =>
      simp only [List.getElem?_cons_succ] at hb
      rw [entriesOf_cons, bucket_find_append]
      have hb0 : bucket_find (b0.getD []) k = none := by
        refine bucket_find_of_other_slot (by simpa using hwf.1) k ?_
        omega
      rw [hb0]
      exact ih hwf.2 k j (by omega) b hb

/-! ### Arithmetic facts about the reachable slot counts -/

theorem hashSizes_ge_16 {L : Nat} (hL : L ∈ hashSizes) : 16 ≤ L := by
  fin_cases hL <;> decide

theorem hashSizes_pos {L : Nat} (hL : L ∈ hashSizes) : 0 < L :=
  Nat.lt_of_lt_of_le (by decide) (hashSizes_ge_16 hL)

/-- For every reachable slot count except the terminal `2 ^ 58`, the size of
the table `hash_resize` builds is 64 times the old size, and is itself a
reachable slot count. -/
theorem resize_growth {L : Nat} (hL : L ∈ hashSizes) (hne : L ≠ 288230376151711744) :
    next_size ((sizeofBucket * next_size L) % U64) = 64 * L ∧ 64 * L ∈ hashSizes := by
  fin_cases hL <;> simp_all <;> decide

/-- At the terminal slot count `2 ^ 58` the 64-bit size computation of
`hash_resize` wraps and the fresh table has zero slots. -/
theorem resize_growth_dead :
    next_size ((sizeofBucket * next_size 288230376151711744) % U64) = 0 := by decide

/-- Any count satisfying the load bound at a reachable slot count is small
(far below the 64-bit range). -/
theorem count_small {L c : Nat} (hL : L ∈ hashSizes) (hc : c * 100 ≤ (L * 75) % U64) :
    c < 2 ^ 56 := by
  fin_cases hL <;> [skip; skip; skip; skip; skip; skip; skip; skip; skip; skip] <;>
    revert hc <;> norm_num [U64] <;> omega

/-- The load comparison made by an insertion that does not trigger a resize
gives back the (non-wrapping) load bound. -/
theorem no_trigger_load {L c : Nat} (hL : L ∈ hashSizes)
    (hc : c * 100 ≤ (L * 75) % U64)
    (htr : ¬ ((c + 1) * 100) % U64 > (L * 75) % U64) :
    (c + 1) * 100 ≤ (L * 75) % U64 := by
  have hsmall : c < 2 ^ 56 := count_small hL hc
  have hlt : (c + 1) * 100 < U64 := by
    have : (c + 1) * 100 ≤ 2 ^ 56 * 100 + 100 := by omega
    have h2 : 2 ^ 56 * 100 + 100 < U64 := by norm_num [U64]
    omega
  rw [Nat.mod_eq_of_lt hlt] at htr
  omega

/-- A triggered resize is handed a table whose (unwrapped) count exceeds the
0.75 load bound by at most one insertion. -/
theorem trigger_bound {L c : Nat} (hc : c * 100 ≤ (L * 75) % U64) :
    (c + 1) * 100 ≤ 75 * L + 100 := by
  have := Nat.mod_le (L * 75) U64
  omega

/-- During a resize's re-insertion into the fresh, 64-times-larger table, the
load-factor trigger can never fire. -/
theorem reinsert_no_trigger {L c : Nat} (hL : L ∈ hashSizes)
    (hne : L ≠ 288230376151711744) (hc : c * 100 ≤ 75 * L + 200) :
    ¬ (c * 100) % U64 > ((64 * L) * 75) % U64 := by
  have hLle : L ≤ 4503599627370496 := by
    fin_cases hL <;> first | exact absurd rfl hne | decide
  have hlt : c * 100 < U64 := by
    have h75 : 75 * L ≤ 75 * 4503599627370496 := Nat.mul_le_mul_left 75 hLle
    have hU : (75 * 4503599627370496 : Nat) + 200 < U64 := by norm_num [U64]
    omega
  rw [Nat.mod_eq_of_lt hlt]
  have hrhs : 75 * L + 200 ≤ ((64 * L) * 75) % U64 := by
    fin_cases hL <;> first | exact absurd rfl hne | decide
  omega

/-! ### Specifications of the fuelled operations

`PutSpecP`/`IncSpecP` state, for tables satisfying `HInv`, the effect of one
successful `hash_put`/`hash_inc`: the invariant is maintained, the key's
stored value is overwritten resp. accumulated, every other key's stored value
is untouched, the item count grows exactly when the key was absent, and the
slot count does not shrink (and is unchanged whenever the load comparison
does not fire).  `ResizeSpecP` states the effect of one successful
`hash_resize` on a well-formed table at the load at which insertions invoke
it. -/

def PutSpecP (f : Nat) : Prop :=
  ∀ h k v h2, HInv h → hash_putF f h k v = some h2 →
    HInv h2 ∧ hash_findQ h2 k = some v ∧
      (∀ k2, k2 ≠ k → hash_findQ h2 k2 = hash_findQ h k2) ∧
      h2.count = h.count + (if hash_findQ h k = none then 1 else 0) ∧
      h.buckets.length ≤ h2.buckets.length ∧
      (((h.count + (if hash_findQ h k = none then 1 else 0)) * 100) % U64 ≤
          (h.buckets.length * 75) % U64 → h2.buckets.length = h.buckets.length)

def IncSpecP (f : Nat) : Prop :=
  ∀ h k v h2, HInv h → hash_incF f h k v = some h2 →
    HInv h2 ∧ hash_findQ h2 k = some ((hash_findQ h k).getD 0 + v) ∧
      (∀ k2, k2 ≠ k → hash_findQ h2 k2 = hash_findQ h k2) ∧
      h2.count = h.count + (if hash_findQ h k = none then 1 else 0) ∧
      h.buckets.length ≤ h2.buckets.length ∧
      (((h.count + (if hash_findQ h k = none then 1 else 0)) * 100) % U64 ≤
          (h.buckets.length * 75) % U64 → h2.buckets.length = h.buckets.length)

def ResizeSpecP (f : Nat) : Prop :=
  ∀ h h2, wfCore h → 1 ≤ h.count → h.count * 100 ≤ 75 * h.buckets.length + 100 →
    hash_resizeF f h = some h2 →
    HInv h2 ∧ (∀ k, hash_findQ h2 k = hash_findQ h k) ∧ h2.count = h.count ∧
      h2.buckets.length = next_size ((sizeofBucket * next_size h.buckets.length) % U64) ∧
      h.buckets.length ≤ h2.buckets.length


/-- Lookup when the key's slot holds an unallocated bucket. -/
theorem hash_findQ_of_bucket_none (h : Hash) (k : List Nat)
    (hb : h.buckets[hash_function k % h.buckets.length]? = some none) :
    hash_findQ h k = none := by
  unfold hash_findQ
  rw [hb]

/-- Lookup when the key's slot holds an allocated bucket. -/
theorem hash_findQ_of_bucket_some (h : Hash) (k : List Nat) (ps : List Pair)
    (hb : h.buckets[hash_function k % h.buckets.length]? = some (some ps)) :
    hash_findQ h k = bucket_find ps k := by
  unfold hash_findQ
  rw [hb]

/-- The effect of one successful `hash_upd_body`, generically over the
already-present action.  `rv old v` is the value stored when the key was
already present with value `old`; an absent key stores `rv 0 v = v`. -/
theorem hash_upd_body_spec
    (upd : List Pair → List Nat → ℚ → Option (List Pair)) (rv : ℚ → ℚ → ℚ)
    (hrv0 : ∀ x, rv 0 x = x)
    (hupd_none : ∀ ps k v, upd ps k v = none ↔ bucket_find ps k = none)
    (hupd_some : ∀ ps k v ps2, upd ps k v = some ps2 →
      bucket_find ps2 k = some (rv ((bucket_find ps k).getD 0) v) ∧
        (∀ k2, k2 ≠ k → bucket_find ps2 k2 = bucket_find ps k2) ∧
        ps2.map Pair.key = ps.map Pair.key)
    (resize : Hash → Option Hash)
    (hres : ∀ h h2, wfCore h → 1 ≤ h.count →
      h.count * 100 ≤ 75 * h.buckets.length + 100 → resize h = some h2 →
      HInv h2 ∧ (∀ k, hash_findQ h2 k = hash_findQ h k) ∧ h2.count = h.count ∧
        h.buckets.length ≤ h2.buckets.length)
    (h : Hash) (k : List Nat) (v : ℚ) (h2 : Hash)
    (hinv : HInv h) (hbody : hash_upd_body upd resize h k v = some h2) :
    HInv h2 ∧ hash_findQ h2 k = some (rv ((hash_findQ h k).getD 0) v) ∧
      (∀ k2, k2 ≠ k → hash_findQ h2 k2 = hash_findQ h k2) ∧
      h2.count = h.count + (if hash_findQ h k = none then 1 else 0) ∧
      h.buckets.length ≤ h2.buckets.length ∧
      (((h.count + (if hash_findQ h k = none then 1 else 0)) * 100) % U64 ≤
          (h.buckets.length * 75) % U64 → h2.buckets.length = h.buckets.length) := by
  obtain ⟨⟨hbw, hcnt, hlen⟩, hload⟩ := hinv
  have hLpos : 0 < h.buckets.length := hashSizes_pos hlen
  have hilt : hash_function k % h.buckets.length < h.buckets.length :=
    Nat.mod_lt _ hLpos
  have hcsmall : h.count < 2 ^ 56 := count_small hlen hload
  have hcm : (h.count + 1) % U64 = h.count + 1 := by
    refine Nat.mod_eq_of_lt ?_
    have : (2 : Nat) ^ 56 + 1 < U64 := by norm_num [U64]
    omega
  simp only [hash_upd_body] at hbody
  split at hbody
  next heq => exact Option.noConfusion hbody
  next ps heq =>
    -- the key's slot holds an allocated bucket `ps`
    have hfind := hash_findQ_of_bucket_some h k ps heq
    have hbwf : bucketWF h.buckets.length (hash_function k % h.buckets.length)
        (some ps) := by
      exact bucketsWF_getElem0 (hash_function k % h.buckets.length) hbw _ heq
    split at hbody
    next ps2 hup =>
      -- key present: in-place update of the first matching pair
      replace hbody := Option.some.inj hbody
      subst hbody
      obtain ⟨hu1, hu2, hu3⟩ := hupd_some ps k v ps2 hup
      have hnotnone : ¬ hash_findQ h k = none := by
        rw [hfind, ← hupd_none ps k v]
        simp [hup]
      have hlen2 : (h.buckets.set (hash_function k % h.buckets.length)
          (some ps2)).length = h.buckets.length := List.length_set ..
      have hps2len : ps2.length = ps.length := by
        have := congrArg List.length hu3
        simpa using this
      refine ⟨⟨⟨?_, ?_, ?_⟩, ?_⟩, ?_, ?_, ?_, ?_, ?_⟩
      · rw [hlen2]
        refine bucketsWF_set0 _ (some ps2) hbw ?_
        refine ⟨?_, hu3 ▸ hbwf.2⟩
        intro p hp
        have hkey : p.key ∈ ps2.map Pair.key := List.mem_map_of_mem _ hp
        rw [hu3] at hkey
        obtain ⟨q, hq, hqk⟩ := List.mem_map.mp hkey
        rw [← hqk]
        exact hbwf.1 q hq
      · show h.count = sizeSum (h.buckets.set (hash_function k % h.buckets.length)
          (some ps2))
        have := sizeSum_set h.buckets (hash_function k % h.buckets.length)
          (some ps2) (some ps) heq
        simp only [bSize, Option.getD_some] at this
        omega
      · rw [hlen2]; exact hlen
      · show loadOk _
        simp only [loadOk, hlen2]
        exact hload
      · rw [hash_findQ_set_self h k ps2 h.count hilt, hu1, hfind]
      · intro k2 hk2
        by_cases hslot : hash_function k2 % h.buckets.length =
            hash_function k % h.buckets.length
        · have hb2 : (h.buckets.set (hash_function k % h.buckets.length)
              (some ps2))[hash_function k2 % (h.buckets.set
                (hash_function k % h.buckets.length) (some ps2)).length]? =
              some (some ps2) := by
            rw [hlen2, hslot]
            exact List.getElem?_set_self hilt
          have hb3 : h.buckets[hash_function k2 % h.buckets.length]? =
              some (some ps) := by
            rw [hslot]; exact heq
          rw [hash_findQ_of_bucket_some _ k2 ps2 hb2,
            hash_findQ_of_bucket_some h k2 ps hb3]
          exact hu2 k2 hk2
        · exact hash_findQ_set_other h k2 _ (some ps2) h.count hslot
      · rw [if_neg hnotnone]
        rfl
      · exact le_of_eq hlen2.symm
      · intro _; exact hlen2
    next hup =>
      -- key absent from the allocated bucket
      have hfbnone : bucket_find ps k = none := (hupd_none ps k v).mp hup
      have hfnone : hash_findQ h k = none := by rw [hfind, hfbnone]
      split at hbody
      next hrp => exact Option.noConfusion hbody
      next hrp =>
      rw [hcm] at hbody
      have hmidlen : (h.buckets.set (hash_function k % h.buckets.length)
          (some (ps ++ [⟨k, v⟩]))).length = h.buckets.length := List.length_set ..
      have hmidwf : wfCore { buckets := h.buckets.set (hash_function k % h.buckets.length) (some (ps ++ [⟨k, v⟩])), count := h.count + 1 } := by
        refine ⟨?_, ?_, ?_⟩
        · rw [hmidlen]
          refine bucketsWF_set0 _ (some (ps ++ [⟨k, v⟩])) hbw ?_
          constructor
          · intro p hp
            rcases List.mem_append.mp hp with hp | hp
            · exact hbwf.1 p hp
            · simp only [List.mem_singleton] at hp
              subst hp
              rfl
          · rw [List.map_append, List.nodup_append]
            refine ⟨hbwf.2, by simp, ?_⟩
            intro a ha hb2
            simp only [List.map_cons, List.map_nil, List.mem_singleton] at hb2
            subst hb2
            rw [bucket_find_eq_none_iff] at hfbnone
            obtain ⟨q, hq, hqk⟩ := List.mem_map.mp ha
            exact hfbnone q hq hqk
        · show h.count + 1 = sizeSum (h.buckets.set
            (hash_function k % h.buckets.length) (some (ps ++ [⟨k, v⟩])))
          have := sizeSum_set h.buckets (hash_function k % h.buckets.length)
            (some (ps ++ [⟨k, v⟩])) (some ps) heq
          simp only [bSize, Option.getD_some, List.length_append, List.length_cons,
            List.length_nil] at this
          omega
        · rw [hmidlen]; exact hlen
      have hmidfind : hash_findQ { buckets := h.buckets.set (hash_function k % h.buckets.length) (some (ps ++ [⟨k, v⟩])), count := h.count + 1 } k = some v := by
        rw [hash_findQ_set_self h k (ps ++ [({ key := k, value := v } : Pair)]) (h.count + 1) hilt]
        rw [bucket_find_append, hfbnone]
        simp [bucket_find]
      have hmidother : ∀ k2, k2 ≠ k → hash_findQ { buckets := h.buckets.set (hash_function k % h.buckets.length) (some (ps ++ [⟨k, v⟩])), count := h.count + 1 } k2 = hash_findQ h k2 := by
        intro k2 hk2
        by_cases hslot : hash_function k2 % h.buckets.length =
            hash_function k % h.buckets.length
        · have hb2 : (h.buckets.set (hash_function k % h.buckets.length)
              (some (ps ++ [⟨k, v⟩])))[hash_function k2 % (h.buckets.set
                (hash_function k % h.buckets.length)
                (some (ps ++ [⟨k, v⟩]))).length]? = some (some (ps ++ [⟨k, v⟩])) := by
            rw [hmidlen, hslot]
            exact List.getElem?_set_self hilt
          have hb3 : h.buckets[hash_function k2 % h.buckets.length]? =
              some (some ps) := by
            rw [hslot]; exact heq
          rw [hash_findQ_of_bucket_some _ k2 _ hb2,
            hash_findQ_of_bucket_some h k2 ps hb3]
          rw [bucket_find_append]
          cases hcase : bucket_find ps k2 with
          | some w => rfl
          | none =>
            have hkk2 : ¬ k = k2 := fun hcontra => hk2 hcontra.symm
            simp [bucket_find, hkk2]
        · exact hash_findQ_set_other h k2 _ (some (ps ++ [⟨k, v⟩])) (h.count + 1) hslot
      rw [hfnone]
      simp only [if_pos rfl, Option.getD_none, hrv0]
      split at hbody
      next htr =>
        rw [hmidlen] at htr
        obtain ⟨hi2, hf2, hc2, hl2⟩ := hres _ h2 hmidwf (by simp)
          (by simpa using trigger_bound hload) hbody
        refine ⟨hi2, by rw [hf2 k, hmidfind],
          fun k2 hk2 => by rw [hf2 k2, hmidother k2 hk2],
          by rw [hc2]; simp, by simpa [hmidlen] using hl2, ?_⟩
        intro hno
        exact absurd (lt_of_lt_of_le htr hno) (lt_irrefl _)
      next htr =>
        rw [hmidlen] at htr
        replace hbody := Option.some.inj hbody
        subst hbody
        have hload2 := no_trigger_load hlen hload htr
        exact ⟨⟨hmidwf, by simpa [loadOk, hmidlen] using hload2⟩, hmidfind, hmidother,
          rfl, le_of_eq hmidlen.symm, fun _ => hmidlen⟩
  next heq =>
    -- the key's slot holds an unallocated bucket: create it
    have hfnone : hash_findQ h k = none := hash_findQ_of_bucket_none h k heq
    rw [hcm] at hbody
    have hmidlen : (h.buckets.set (hash_function k % h.buckets.length)
        (some [⟨k, v⟩])).length = h.buckets.length := List.length_set ..
    have hmidwf : wfCore { buckets := h.buckets.set (hash_function k % h.buckets.length) (some [⟨k, v⟩]), count := h.count + 1 } := by
      refine ⟨?_, ?_, ?_⟩
      · rw [hmidlen]
        refine bucketsWF_set0 _ (some [⟨k, v⟩]) hbw ?_
        refine ⟨?_, by simp⟩
        intro p hp
        simp only [List.mem_singleton] at hp
        subst hp
        rfl
      · show h.count + 1 = sizeSum (h.buckets.set
          (hash_function k % h.buckets.length) (some [⟨k, v⟩]))
        have := sizeSum_set h.buckets (hash_function k % h.buckets.length)
          (some [⟨k, v⟩]) none heq
        simp only [bSize, Option.getD_none, List.length_nil, Nat.add_zero,
          Option.getD_some, List.length_cons] at this
        omega
      · rw [hmidlen]; exact hlen
    have hmidfind : hash_findQ { buckets := h.buckets.set (hash_function k % h.buckets.length) (some [⟨k, v⟩]), count := h.count + 1 } k = some v := by
      rw [hash_findQ_set_self h k [({ key := k, value := v } : Pair)] (h.count + 1) hilt]
      simp [bucket_find]
    have hmidother : ∀ k2, k2 ≠ k → hash_findQ { buckets := h.buckets.set (hash_function k % h.buckets.length) (some [⟨k, v⟩]), count := h.count + 1 } k2 = hash_findQ h k2 := by
      intro k2 hk2
      by_cases hslot : hash_function k2 % h.buckets.length =
          hash_function k % h.buckets.length
      · have hb2 : (h.buckets.set (hash_function k % h.buckets.length)
            (some [⟨k, v⟩]))[hash_function k2 % (h.buckets.set
              (hash_function k % h.buckets.length) (some [⟨k, v⟩])).length]? =
            some (some [⟨k, v⟩]) := by
          rw [hmidlen, hslot]
          exact List.getElem?_set_self hilt
        have hb3 : h.buckets[hash_function k2 % h.buckets.length]? = some none := by
          rw [hslot]; exact heq
        rw [hash_findQ_of_bucket_some _ k2 _ hb2, hash_findQ_of_bucket_none h k2 hb3]
        have hkk2 : ¬ k = k2 := fun hcontra => hk2 hcontra.symm
        simp [bucket_find, hkk2]
      · exact hash_findQ_set_other h k2 _ (some [⟨k, v⟩]) (h.count + 1) hslot
    rw [hfnone]
    simp only [if_pos rfl, Option.getD_none, hrv0]
    split at hbody
    next htr =>
      rw [hmidlen] at htr
      obtain ⟨hi2, hf2, hc2, hl2⟩ := hres _ h2 hmidwf (by simp)
        (by simpa using trigger_bound hload) hbody
      refine ⟨hi2, by rw [hf2 k, hmidfind],
        fun k2 hk2 => by rw [hf2 k2, hmidother k2 hk2],
        by rw [hc2]; simp, by simpa [hmidlen] using hl2, ?_⟩
      intro hno
      exact absurd (lt_of_lt_of_le htr hno) (lt_irrefl _)
    next htr =>
      rw [hmidlen] at htr
      replace hbody := Option.some.inj hbody
      subst hbody
      have hload2 := no_trigger_load hlen hload htr
      exact ⟨⟨hmidwf, by simpa [loadOk, hmidlen] using hload2⟩, hmidfind, hmidother,
        rfl, le_of_eq hmidlen.symm, fun _ => hmidlen⟩

/-! ### The re-insertion loop of hash_resize -/

/-- The function `hash_resize`'s nested bucket/entry loops are a single fold over the flat
entry list. -/
theorem resize_fold_eq (put : Hash → List Nat → ℚ → Option Hash) :
    ∀ (bs : List Bucket) (acc : Option Hash),
      bs.foldl
        (fun acc b =>
          match b with
          | none => acc
          | some ps => ps.foldl (fun acc2 p => acc2.bind fun r => put r p.key p.value) acc)
        acc =
      (entriesOf bs).foldl (fun acc2 p => acc2.bind fun r => put r p.key p.value) acc := by
  intro bs
  induction bs with
  | nil => intro acc; rfl
  | cons b bs ih =>
    intro acc
    rw [List.foldl_cons, entriesOf_cons, List.foldl_append]
    cases b with
    | none => exact ih acc
    | some ps => exact ih _

/-- A failed accumulator never recovers. -/
theorem reinsert_none (put : Hash → List Nat → ℚ → Option Hash) :
    ∀ (es : List Pair),
      es.foldl (fun acc2 p => acc2.bind fun r => put r p.key p.value) none = none := by
  intro es
  induction es with
  | nil => rfl
  | cons p es ih => simpa using ih

/-- The function `hash_put` on a table with an empty bucket array (the table a wrapped-size
resize builds) fails: the slot index is out of range. -/
theorem hash_putF_buckets_nil (f : Nat) (h : Hash) (k : List Nat) (v : ℚ)
    (hb : h.buckets = []) : hash_putF f h k v = none := by
  cases f with
  | zero => rfl
  | succ f =>
    rw [hash_putF_succ]
    simp only [hash_upd_body, hb]
    rfl

/-- The effect of re-inserting a fresh, key-distinct entry list (the resize
loop) by successive `hash_put`s, provided the accumulated count stays within
the fresh table's load allowance (so that no nested resize can trigger). -/
theorem reinsert_spec (f : Nat) (hput : PutSpecP f) :
    ∀ (es : List Pair) (res res2 : Hash),
      HInv res → (es.map Pair.key).Nodup →
      (∀ p ∈ es, hash_findQ res p.key = none) →
      (res.count + es.length) * 100 ≤ (res.buckets.length * 75) % U64 →
      es.foldl (fun acc2 p => acc2.bind fun r => hash_putF f r p.key p.value)
        (some res) = some res2 →
      HInv res2 ∧ res2.count = res.count + es.length ∧
        res2.buckets.length = res.buckets.length ∧
        (∀ k, hash_findQ res2 k =
          match bucket_find es k with
          | some v => some v
          | none => hash_findQ res k) := by
  intro es
  induction es with
  | nil =>
    intro res res2 hinv _ _ _ hfold
    replace hfold := Option.some.inj hfold
    subst hfold
    exact ⟨hinv, by simp, rfl, fun k => rfl⟩
  | cons p es ih =>
    intro res res2 hinv hnodup hfresh hloadall hfold
    rw [List.foldl_cons] at hfold
    cases hstep : hash_putF f res p.key p.value with
    | none =>
      rw [Option.some_bind, hstep] at hfold
      rw [reinsert_none] at hfold
      exact Option.noConfusion hfold
    | some res1 =>
      rw [Option.some_bind, hstep] at hfold
      have hfreshp : hash_findQ res p.key = none := hfresh p (by simp)
      obtain ⟨hinv1, hf1, hother1, hcount1, _, hlenimp⟩ :=
        hput res p.key p.value res1 hinv hstep
      rw [hfreshp] at hcount1
      simp only [if_pos rfl, if_true] at hcount1
      have hmodlt : (res.buckets.length * 75) % U64 < U64 :=
        Nat.mod_lt _ (by norm_num [U64])
      have hlen1 : res1.buckets.length = res.buckets.length := by
        refine hlenimp ?_
        rw [hfreshp]
        simp only [if_pos rfl, if_true]
        have hle : (res.count + 1) * 100 ≤ (res.count + (p :: es).length) * 100 := by
          simp only [List.length_cons]
          exact Nat.mul_le_mul_right _ (by omega)
        rw [Nat.mod_eq_of_lt (lt_of_le_of_lt (le_trans hle hloadall) hmodlt)]
        exact le_trans hle hloadall
      have hkeyp : p.key ∉ es.map Pair.key := by
        have := hnodup
        rw [List.map_cons, List.nodup_cons] at this
        exact this.1
      have hfresh1 : ∀ q ∈ es, hash_findQ res1 q.key = none := by
        intro q hq
        have hqk : q.key ≠ p.key := by
          intro hcontra
          exact hkeyp (hcontra ▸ List.mem_map_of_mem _ hq)
        rw [hother1 q.key hqk]
        exact hfresh q (by simp [hq])
      have hload1 : (res1.count + es.length) * 100 ≤
          (res1.buckets.length * 75) % U64 := by
        rw [hlen1, hcount1]
        simpa [Nat.add_assoc, Nat.add_comm 1 es.length] using hloadall
      obtain ⟨hinv2, hcount2, hlen2, hchar⟩ := ih res1 res2 hinv1
        (by rw [List.map_cons, List.nodup_cons] at hnodup; exact hnodup.2)
        hfresh1 hload1 hfold
      refine ⟨hinv2, ?_, by rw [hlen2, hlen1], ?_⟩
      · rw [hcount2, hcount1]
        simp [Nat.add_assoc, Nat.add_comm 1 es.length]
      · intro k
        rw [hchar k]
        by_cases hk : p.key = k
        · subst hk
          have hesnone : bucket_find es p.key = none := by
            rw [bucket_find_eq_none_iff]
            intro q hq hqk
            exact hkeyp (hqk ▸ List.mem_map_of_mem _ hq)
          rw [hesnone, hf1]
          simp only [bucket_find, if_pos rfl, if_true]
        · have hbf : bucket_find (p :: es) k = bucket_find es k := by
            simp only [bucket_find, if_neg hk]
          rw [hbf]
          cases hcase : bucket_find es k with
          | some v => rfl
          | none => exact hother1 k (fun hcontra => hk hcontra.symm)

/-- Scanning the flat entry list of a well-formed table equals the table's
own lookup. -/
theorem entriesOf_find (h : Hash) (hbw : bucketsWF h.buckets.length 0 h.buckets)
    (hpos : 0 < h.buckets.length) (k : List Nat) :
    bucket_find (entriesOf h.buckets) k = hash_findQ h k := by
  have hilt : hash_function k % h.buckets.length < h.buckets.length :=
    Nat.mod_lt _ hpos
  have hb : h.buckets[hash_function k % h.buckets.length]? =
      some (h.buckets[hash_function k % h.buckets.length]) :=
    List.getElem?_eq_getElem hilt
  rw [bucket_find_entriesOf hbw k (hash_function k % h.buckets.length)
    (Nat.zero_add _) _ hb]
  cases hbv : h.buckets[hash_function k % h.buckets.length] with
  | none =>
    rw [hash_findQ_of_bucket_none h k (hbv ▸ hb)]
    rfl
  | some ps =>
    rw [hash_findQ_of_bucket_some h k ps (hbv ▸ hb)]
    rfl

/-- The load headroom of the 64-times-larger fresh table a resize builds. -/
theorem resize_load_bound {L : Nat} (hL : L ∈ hashSizes)
    (hne : L ≠ 288230376151711744) :
    75 * L + 200 ≤ ((64 * L) * 75) % U64 := by
  fin_cases hL <;> first | exact absurd rfl hne | decide

/-- The put/inc/resize triple satisfies its specifications at every fuel. -/
theorem hash_ops_spec : ∀ f, PutSpecP f ∧ IncSpecP f ∧ ResizeSpecP f := by
  intro f
  induction f with
  | zero =>
    refine ⟨?_, ?_, ?_⟩
    · intro h k v h2 _ hbody
      rw [hash_putF_zero] at hbody
      exact Option.noConfusion hbody
    · intro h k v h2 _ hbody
      rw [hash_incF_zero] at hbody
      exact Option.noConfusion hbody
    · intro h h2 _ _ _ hbody
      rw [hash_resizeF_zero] at hbody
      exact Option.noConfusion hbody
  | succ f ih =>
    have hresize : ResizeSpecP (f + 1) := by
      intro h h2 hwf hcount1 hload hbody
      obtain ⟨hbw, hcnt, hlen⟩ := hwf
      rw [hash_resizeF_succ, resize_fold_eq] at hbody
      have hlenes : (entriesOf h.buckets).length = h.count := by
        rw [length_entriesOf, ← hcnt]
      by_cases hdead : h.buckets.length = 288230376151711744
      · -- the 64-bit size computation wraps: the fresh table has no slots and
        -- the (nonempty) re-insertion dies on its first hash_put
        exfalso
        have hres0 : (hash_init_capacity
            ((sizeofBucket * next_size h.buckets.length) % U64)).buckets = [] := by
          rw [hdead]
          unfold hash_init_capacity
          rw [resize_growth_dead]
          rfl
        match hes : entriesOf h.buckets with
        | [] =>
          rw [hes] at hlenes
          simp at hlenes
          omega
        | p :: es =>
          rw [hes, List.foldl_cons, Option.some_bind,
            hash_putF_buckets_nil f _ p.key p.value hres0, reinsert_none] at hbody
          exact Option.noConfusion hbody
      · obtain ⟨hgrow, hmem⟩ := resize_growth hlen hdead
        have hres0len : (hash_init_capacity
            ((sizeofBucket * next_size h.buckets.length) % U64)).buckets.length =
            64 * h.buckets.length := by
          unfold hash_init_capacity
          rw [List.length_replicate]
          exact hgrow
        have hres0inv : HInv (hash_init_capacity
            ((sizeofBucket * next_size h.buckets.length) % U64)) := by
          constructor
          · refine ⟨?_, ?_, ?_⟩
            · exact bucketsWF_replicate _ _ _
            · unfold hash_init_capacity
              rw [sizeSum_replicate]
            · rw [hres0len]; exact hmem
          · show (0 : Nat) * 100 ≤ _
            simp
        obtain ⟨hinv2, hcount2, hlen2, hchar⟩ := reinsert_spec f ih.1 _ _ h2 hres0inv
          (entriesOf_keys_nodup hbw)
          (fun p _ => hash_findQ_replicate_none _ _ _)
          (by
            rw [hres0len, hlenes]
            show (0 + h.count) * 100 ≤ _
            have hb1 : 75 * h.buckets.length + 200 ≤
                ((64 * h.buckets.length) * 75) % U64 := resize_load_bound hlen hdead
            omega)
          hbody
      -- assemble the conclusions
        have hfind : ∀ k, hash_findQ h2 k = hash_findQ h k := by
          intro k
          rw [hchar k, entriesOf_find h hbw (hashSizes_pos hlen) k]
          cases hcase : hash_findQ h k with
          | some v => rfl
          | none => exact hash_findQ_replicate_none _ _ _
        refine ⟨hinv2, hfind, ?_, ?_, ?_⟩
        · rw [hcount2, hlenes]
          exact Nat.zero_add h.count
        · rw [hlen2]
          unfold hash_init_capacity
          exact List.length_replicate ..
        · rw [hlen2, hres0len]
          omega
    have hresw : ∀ hh h2, wfCore hh → 1 ≤ hh.count →
        hh.count * 100 ≤ 75 * hh.buckets.length + 100 →
        hash_resizeF (f + 1) hh = some h2 →
        HInv h2 ∧ (∀ k, hash_findQ h2 k = hash_findQ hh k) ∧ h2.count = hh.count ∧
          hh.buckets.length ≤ h2.buckets.length := by
      intro hh h2 a b c d
      obtain ⟨r1, r2, r3, _, r5⟩ := hresize hh h2 a b c d
      exact ⟨r1, r2, r3, r5⟩
    refine ⟨?_, ?_, hresize⟩
    · intro h k v h2 hinv hbody
      rw [hash_putF_succ] at hbody
      have := hash_upd_body_spec bucket_overwrite (fun _ x => x) (fun _ => rfl)
        bucket_overwrite_eq_none_iff
        (fun ps k v ps2 hup => by
          obtain ⟨h1, h2, h3⟩ := bucket_overwrite_spec ps k v ps2 hup
          exact ⟨h1, h2, h3⟩)
        (hash_resizeF (f + 1)) hresw h k v h2 hinv hbody
      exact this
    · intro h k v h2 hinv hbody
      rw [hash_incF_succ] at hbody
      have := hash_upd_body_spec bucket_addto (fun w x => w + x)
        (fun x => zero_add x)
        bucket_addto_eq_none_iff
        (fun ps k v ps2 hup => by
          obtain ⟨⟨w, hw1, hw2⟩, h2, h3⟩ := bucket_addto_spec ps k v ps2 hup
          refine ⟨?_, h2, h3⟩
          rw [hw2, hw1]
          rfl)
        (hash_resizeF (f + 1)) hresw h k v h2 hinv hbody
      exact this

/-! ### Sequences of insertions -/

/-- One client insertion: `hash_put(key, value)` or `hash_inc(key, value)`. -/
inductive InsOp where
  | put (key : List Nat) (value : ℚ)
  | inc (key : List Nat) (value : ℚ)
  deriving DecidableEq

/-- The key an insertion touches. -/
def opKey : InsOp → List Nat
  | InsOp.put k _ => k
  | InsOp.inc k _ => k

/-- Run one insertion. -/
def applyOp (f : Nat) (h : Hash) : InsOp → Option Hash
  | InsOp.put k v => hash_putF f h k v
  | InsOp.inc k v => hash_incF f h k v

/-- Run a sequence of insertions from a starting table. -/
def execFrom (f : Nat) : Hash → List InsOp → Option Hash
  | h, [] => some h
  | h, op :: ops =>
    match applyOp f h op with
    | none => none
    | some h2 => execFrom f h2 ops

/-- Run a sequence of insertions against a freshly initialised table. -/
def execOps (f : Nat) (ops : List InsOp) : Option Hash :=
  execFrom f hash_init ops

/-- The freshly initialised table satisfies the invariant. -/
theorem hash_init_HInv : HInv hash_init := by decide

/-- Master lemma about insertion sequences: the invariant is maintained, a key
is stored iff it was stored before or is touched by the sequence, and the item
count grows by exactly the number of distinct newly-inserted keys. -/
theorem execFrom_spec (f : Nat) : ∀ (ops : List InsOp) (h0 h : Hash), HInv h0 →
    execFrom f h0 ops = some h →
    HInv h ∧
      (∀ k, hash_findQ h k = none ↔ (hash_findQ h0 k = none ∧ k ∉ ops.map opKey)) ∧
      h.count = h0.count +
        ((ops.map opKey).toFinset.filter (fun k => hash_findQ h0 k = none)).card := by
  intro ops
  induction ops with
  | nil =>
    intro h0 h hinv hexec
    replace hexec := Option.some.inj hexec
    subst hexec
    refine ⟨hinv, fun k => by simp, by simp⟩
  | cons op ops ih =>
    intro h0 h hinv hexec
    simp only [execFrom] at hexec
    cases hstep : applyOp f h0 op with
    | none => rw [hstep] at hexec; exact Option.noConfusion hexec
    | some h1 =>
      rw [hstep] at hexec
      -- effect of the head operation, uniformly for put and inc
      have hstep2 : HInv h1 ∧ (hash_findQ h1 (opKey op)).isSome ∧
          (∀ k2, k2 ≠ opKey op → hash_findQ h1 k2 = hash_findQ h0 k2) ∧
          h1.count = h0.count + (if hash_findQ h0 (opKey op) = none then 1 else 0) := by
        cases op with
        | put k v =>
          obtain ⟨a, b, c, d, _, _⟩ := (hash_ops_spec f).1 h0 k v h1 hinv hstep
          refine ⟨a, ?_, c, d⟩
          show (hash_findQ h1 k).isSome
          rw [b]; rfl
        | inc k v =>
          obtain ⟨a, b, c, d, _, _⟩ := (hash_ops_spec f).2.1 h0 k v h1 hinv hstep
          refine ⟨a, ?_, c, d⟩
          show (hash_findQ h1 k).isSome
          rw [b]; rfl
      obtain ⟨hinv1, hsome1, hother1, hcount1⟩ := hstep2
      obtain ⟨hinvh, hiff, hcount⟩ := ih h1 h hinv1 hexec
      have hiff0 : ∀ k, hash_findQ h1 k = none ↔
          (hash_findQ h0 k = none ∧ k ≠ opKey op) := by
        intro k
        by_cases hk : k = opKey op
        · subst hk
          rw [Option.isSome_iff_ne_none] at hsome1
          simp [hsome1]
        · rw [hother1 k hk]
          simp [hk]
      refine ⟨hinvh, ?_, ?_⟩
      · intro k
        rw [hiff k, hiff0 k]
        simp only [List.map_cons, List.mem_cons]
        constructor
        · rintro ⟨⟨hn, hne⟩, hnotin⟩
          exact ⟨hn, fun hor => hor.elim hne hnotin⟩
        · rintro ⟨hn, hnor⟩
          exact ⟨⟨hn, fun hcontra => hnor (Or.inl hcontra)⟩,
            fun hcontra => hnor (Or.inr hcontra)⟩
      · rw [hcount, hcount1]
        -- set bookkeeping: new distinct keys of (op :: ops) against h0 split
        -- into (possibly) the head key and the new distinct keys of ops
        -- against h1
        have hfilter : ((ops.map opKey).toFinset.filter
              (fun k => hash_findQ h1 k = none)) =
            ((ops.map opKey).toFinset.filter
              (fun k => hash_findQ h0 k = none)).erase (opKey op) := by
          ext k
          simp only [Finset.mem_filter, Finset.mem_erase, hiff0 k]
          tauto
        rw [hfilter]
        simp only [List.map_cons, List.toFinset_cons, Finset.filter_insert]
        by_cases hk0 : hash_findQ h0 (opKey op) = none
        · rw [if_pos hk0, if_pos hk0]
          by_cases hmem : opKey op ∈ (ops.map opKey).toFinset.filter
              (fun k => hash_findQ h0 k = none)
          · rw [Finset.insert_eq_self.mpr hmem, Finset.card_erase_of_mem hmem]
            have hpos : 0 < ((ops.map opKey).toFinset.filter
                (fun k => hash_findQ h0 k = none)).card :=
              Finset.card_pos.mpr ⟨_, hmem⟩
            omega
          · rw [Finset.erase_eq_of_not_mem hmem,
              Finset.card_insert_of_not_mem hmem]
            omega
        · rw [if_neg hk0, if_neg hk0]
          have hmem : opKey op ∉ (ops.map opKey).toFinset.filter
              (fun k => hash_findQ h0 k = none) := by
            simp [Finset.mem_filter, hk0]
          rw [Finset.erase_eq_of_not_mem hmem]
          omega

/-! ### Concrete tables used to witness the claims

`hOne` is the table `hash_init` plus `hash_put("a", 1)` (the key `"a"` is the
byte list `[97]`, which hashes to slot 6 of a 16-slot table); `hC5w` is the
table after `put "a" 1; inc "b" 2; inc "a" 1`; `hHalf` stores the non-integral
value `1/2` under `"a"`. -/

def hOne : Hash :=
  { buckets := [none, none, none, none, none, none, some [⟨[97], 1⟩], none,
                none, none, none, none, none, none, none, none], count := 1 }

def hC5w : Hash :=
  { buckets := [none, none, none, none, none, none, some [⟨[97], 2⟩],
                some [⟨[98], 2⟩], none, none, none, none, none, none, none, none],
    count := 2 }

def hHalf : Hash :=
  { buckets := [none, none, none, none, none, none, some [⟨[97], 1/2⟩], none,
                none, none, none, none, none, none, none, none], count := 1 }

/-! ### The claims -/

/-- C1 (amended): for every key `k` never inserted by a (successful) sequence
of `hash_put`/`hash_inc` operations against a freshly initialised map,
`hash_get` returns the sentinel `-1` and `hash_exists` returns `false`.  (The
original claim further required the NotFound signal to be distinguishable
from every legitimate stored value; that part is false — see the
counterexample — since `hash_get` reuses `-1`, the value of any stored
`double` that truncates to `-1`.) -/
theorem c1_notfound_amended (f : Nat) (ops : List InsOp) (h : Hash)
    (k : List Nat) (hexec : execOps f ops = some h) (hk : k ∉ ops.map opKey) :
    hash_get h k = -1 ∧ hash_exists h k = false := by
  obtain ⟨_, hiff, _⟩ := execFrom_spec f ops hash_init h hash_init_HInv hexec
  have hnone : hash_findQ h k = none := (hiff k).mpr ⟨hash_findQ_init k, hk⟩
  constructor
  · unfold hash_get
    rw [hnone]
  · unfold hash_exists
    rw [hnone]
    rfl

set_option maxRecDepth 100000 in
theorem c1_notfound_amended_witness :
    hash_get hOne [98] = -1 ∧ hash_exists hOne [98] = false :=
  c1_notfound_amended 5 [InsOp.put [97] 1] hOne [98] (by decide) (by decide)

set_option maxRecDepth 100000 in
unseal Rat.add Rat.mul Rat.inv in
/-- C1 counterexample: after `put("a", -1)` the key is present
(`hash_exists` is true) yet `hash_get` returns `-1` — byte-for-byte the same
result `hash_get` gives for the never-inserted key on the fresh map.  The
NotFound signal is therefore not distinguishable from every legitimate stored
value. -/
theorem c1_notfound_counterexample :
    (execOps 5 [InsOp.put [97] (-1)]).map
        (fun h => (hash_get h [97], hash_exists h [97])) = some (-1, true) ∧
      hash_get hash_init [97] = -1 := by decide

/-- C4 (amended): for every well-formed, nonempty map at the load at which
insertions invoke it, a successful `hash_resize` builds a new table whose
slot count is `next_size(sizeof(Bucket) * next_size(old slot count))` — with
the reference 16-byte `Bucket` layout that is 64 times the old slot count,
not double — re-inserts every live entry via `hash_put`, and the result is
extensionally equal to the old map (every key's stored value is preserved
exactly, and the item count is unchanged); the slot count only increases. -/
theorem c4_resize_amended (f : Nat) (h h2 : Hash) (hwf : wfCore h)
    (hc1 : 1 ≤ h.count) (hload : h.count * 100 ≤ 75 * h.buckets.length + 100)
    (hres : hash_resizeF f h = some h2) :
    h2.buckets.length = next_size ((sizeofBucket * next_size h.buckets.length) % U64) ∧
      h.buckets.length ≤ h2.buckets.length ∧
      (∀ k, hash_findQ h2 k = hash_findQ h k) ∧ h2.count = h.count ∧
      (h.buckets.length ≠ 288230376151711744 →
        h2.buckets.length = 64 * h.buckets.length) := by
  obtain ⟨_, hf, hc, hl, hmono⟩ := (hash_ops_spec f).2.2 h h2 hwf hc1 hload hres
  refine ⟨hl, hmono, hf, hc, fun hne => ?_⟩
  rw [hl]
  exact (resize_growth hwf.2.2 hne).1

set_option maxRecDepth 200000 in
theorem hOneR_isSome : (hash_resizeF 2 hOne).isSome := by decide

def hOneR : Hash := (hash_resizeF 2 hOne).get hOneR_isSome

theorem hOneR_eq : hash_resizeF 2 hOne = some hOneR :=
  (Option.some_get hOneR_isSome).symm

set_option maxRecDepth 200000 in
theorem c4_resize_amended_witness :
    hOneR.buckets.length = 64 * hOne.buckets.length ∧
      hash_findQ hOneR [97] = hash_findQ hOne [97] ∧ hOneR.count = hOne.count ∧
      hOne.buckets.length ≤ hOneR.buckets.length :=
  ⟨(c4_resize_amended 2 hOne hOneR (by decide) (by decide) (by decide)
      hOneR_eq).2.2.2.2 (by decide),
   (c4_resize_amended 2 hOne hOneR (by decide) (by decide) (by decide)
      hOneR_eq).2.2.1 [97],
   (c4_resize_amended 2 hOne hOneR (by decide) (by decide) (by decide)
      hOneR_eq).2.2.2.1,
   (c4_resize_amended 2 hOne hOneR (by decide) (by decide) (by decide)
      hOneR_eq).2.1⟩

set_option maxRecDepth 200000 in
/-- C4 counterexample: on the 16-slot table holding one entry (a state every
run reaches), `hash_resize` builds a table of 1024 slots, not the claimed
`2 * 16 = 32`: `hash_init_capacity` is handed
`sizeof(Bucket) * next_size(16) = 512` as a *capacity* and applies
`next_size` to it again. -/
theorem c4_resize_counterexample :
    (hash_resizeF 2 hOne).map (fun h => h.buckets.length) = some 1024 ∧
      ¬ (hash_resizeF 2 hOne).map (fun h => h.buckets.length) = some (2 * 16) ∧
      hOne.buckets.length = 16 := by decide

/-- C5: after any successful sequence of insertions (`hash_put` and
`hash_inc`, with distinct or repeated keys) into a freshly initialised map,
the stored item count equals the number of distinct keys inserted, and
`item_count / slot_count ≤ 0.75` (as `count * 100 ≤ slot_count * 75`) holds
on the resulting map — hence immediately after every insertion call returns,
since every prefix of a successful sequence is itself a successful
sequence. -/
theorem c5_insertion_invariants (f : Nat) (ops : List InsOp) (h : Hash)
    (hexec : execOps f ops = some h) :
    h.count = (ops.map opKey).dedup.length ∧
      h.count * 100 ≤ h.buckets.length * 75 := by
  obtain ⟨⟨_, hload⟩, _, hcount⟩ :=
    execFrom_spec f ops hash_init h hash_init_HInv hexec
  constructor
  · rw [hcount, Finset.filter_true_of_mem (fun k _ => hash_findQ_init k),
      List.card_toFinset]
    exact Nat.zero_add _
  · exact le_trans hload (Nat.mod_le _ _)

set_option maxRecDepth 100000 in
unseal Rat.add Rat.mul Rat.inv in
theorem c5_insertion_invariants_witness :
    hC5w.count =
        (([InsOp.put [97] 1, InsOp.inc [98] 2, InsOp.inc [97] 1].map opKey).dedup).length ∧
      hC5w.count * 100 ≤ hC5w.buckets.length * 75 :=
  c5_insertion_invariants 5 [InsOp.put [97] 1, InsOp.inc [98] 2, InsOp.inc [97] 1]
    hC5w (by decide)

set_option maxRecDepth 400000 in
/-- Sanity check, not tied to a single claim: a thirteen-key insertion run
crosses the 0.75 load threshold on its last insertion, triggers a resize to
1024 slots, and returns normally — so the success hypothesis of the
sequence-level theorems is satisfiable across a resize. -/
theorem execOps_resize_example :
    (execOps 3 ((List.range 13).map (fun n => InsOp.inc [65 + n] 1))).map
      (fun h => (h.count, h.buckets.length)) = some (13, 1024) := by decide

/-- C10: `hash_get` returns the stored 64-bit floating-point value converted
to `long` — truncation toward zero, discarding the fractional part — so for
every key whose stored value is non-integral (denominator not 1 in the exact
model, e.g. the fractional per-match weights produced by normalization),
`hash_get` observes only the truncated integer and not the stored value. -/
theorem c10_get_truncates (h : Hash) (k : List Nat) (q : ℚ)
    (hfound : hash_findQ h k = some q) :
    hash_get h k = q.num.tdiv q.den ∧
      (q.den ≠ 1 → (hash_get h k : ℚ) ≠ q) := by
  have hget : hash_get h k = double_to_long q := by
    unfold hash_get
    rw [hfound]
  refine ⟨hget, fun hden hcontra => ?_⟩
  rw [hget] at hcontra
  have : q.den = 1 := by
    rw [← hcontra]
    exact Rat.den_intCast _
  exact hden this

unseal Rat.add Rat.mul Rat.inv in
theorem c10_get_truncates_witness :
    hash_get hHalf [97] = ((1 : ℚ)/2).num.tdiv ((1 : ℚ)/2).den ∧
      (((1 : ℚ)/2).den ≠ 1 → (hash_get hHalf [97] : ℚ) ≠ (1 : ℚ)/2) :=
  c10_get_truncates hHalf [97] ((1 : ℚ)/2) (by decide)

/-! ### Concrete scan inputs used for the scanner claims

`bufA1001` models the allocation `read_file` produces for a 500-byte file:
the allocation extends past offset `MAX_WORD_LEN` (here 1001 bytes: 1000
`'a'` bytes, with the arbitrary allocation-slack byte 55 at offset 1000), and
the scans are run with `length = 500`.  `mNomatch`/`mEspace` are matchers
that report no match resp. `REG_ESPACE` on every attempt. -/

def bufA1001 : List Nat := List.replicate 1000 97 ++ [55]

def mNomatch : Matcher := fun _ => RegRes.nomatch

def mEspace : Matcher := fun _ => RegRes.espace

set_option maxRecDepth 400000 in
/-- C2 (code bug): the zero-match case of `freq_read_file`'s normalization is
not guarded.  On a buffer with no matches the counting pass returns 0 and
`freq_read_file` unconditionally forms `(double) multiplier / count` with the
zero divisor (in the exact model, the guarded division reports the
division-by-zero as `none`, which the embedded `freq_read_file_core`
reaches), instead of skipping the file or signalling a distinct error. -/
theorem c2_division_by_zero_reached :
    (freq_scan mNomatch 5 5 none (filter_chars bufA1001) 500 true 1).map
        (fun r => r.2.2) = some 0 ∧
      c_double_div (4 : ℚ) ((0 : Int) : ℚ) = none ∧
      freq_read_file_core mNomatch 5 5 hash_init bufA1001 500 [97, 98] 4 = none := by
  refine ⟨by decide, by decide, by decide⟩

set_option maxRecDepth 400000 in
/-- C3 (code bug): `freq_scan`'s temporary cap — the NUL written at offset
`i + MAX_WORD_LEN` — is restored only on the successful-match path.  On the
no-more-matches exit and on the `REG_ESPACE` exit the function returns with
the NUL still in place: the final buffer differs from the buffer at entry at
offset 1000. -/
theorem c3_cap_not_restored :
    (freq_scan mNomatch 5 5 none bufA1001 500 true 1).map (fun r => r.2.1) =
        some (bufA1001.set 1000 0) ∧
      (freq_scan mEspace 5 5 none bufA1001 500 true 1).map (fun r => r.2.1) =
        some (bufA1001.set 1000 0) ∧
      ¬ bufA1001.set 1000 0 = bufA1001 := by
  refine ⟨by decide, by decide, by decide⟩

set_option maxRecDepth 400000 in
unseal Rat.add Rat.mul Rat.inv in
/-- C6 (code bug): `freq_scan` does return the distinct result `-4` on
`REG_ESPACE` (different from the no-more-matches return, `0` matches here),
but `freq_read_file` does not surface it: it returns its local `matches`
variable, which is initialised to 0 and never updated, so the file's result
is reported as success (0) — contradicting the function's own documented
return code `-4: Regular expression ran out of memory`. -/
theorem c6_espace_not_surfaced :
    (freq_scan mEspace 5 5 none bufA1001 500 true 1).map (fun r => r.2.2) =
        some (-4) ∧
      (freq_scan mNomatch 5 5 none bufA1001 500 true 1).map (fun r => r.2.2) =
        some 0 ∧
      (freq_read_file_core mEspace 5 5 hash_init bufA1001 500 [97, 98] 4).map
        (fun r => r.2) = some 0 := by
  refine ⟨by decide, by decide, by decide⟩

/-- C7: on every successful match, `freq_scan` advances the scan position by
exactly `matchstart + 1` bytes in overlap mode, and to the match's end offset
in non-overlap mode (the loop continues at that position with the capped byte
restored and the match counted); and `freq_read_file` selects non-overlap
mode exactly when the pattern string contains a `+` (43) or `*` (42) byte. -/
theorem c7_advancement_and_overlap_selection
    (m : Matcher) (overlap : Bool) (adj : ℚ) (len hfuel fuel : Nat)
    (oh oh2 : Option Hash) (buf : List Nat) (i nm holder : Nat)
    (so eo so1 eo1 : Nat) (regex : List Nat)
    (hi : i < len)
    (hhold : buf[i + MAX_WORD_LEN]? = some holder)
    (hm : m (cstr_at (buf.set (i + MAX_WORD_LEN) 0) i) = RegRes.found so eo so1 eo1)
    (hupd : scan_update hfuel oh (buf.set (i + MAX_WORD_LEN) 0) i adj so eo so1 eo1 =
      some oh2) :
    freq_scanAux m overlap adj len hfuel (fuel + 1) oh buf i nm =
      freq_scanAux m overlap adj len hfuel fuel oh2
        ((buf.set (i + MAX_WORD_LEN) 0).set (i + MAX_WORD_LEN) holder)
        (if overlap then i + so + 1 else i + eo) (nm + 1) ∧
      (frf_overlap regex = false ↔
        (43 ∈ regex.takeWhile (· ≠ 0) ∨ 42 ∈ regex.takeWhile (· ≠ 0))) := by
  constructor
  · simp only [freq_scanAux, if_pos hi, hhold, hm, hupd]
  · simp only [frf_overlap, c_strchr_found]
    constructor
    · intro hfalse
      by_cases h43 : (43 : Nat) ∈ regex.takeWhile (· ≠ 0)
      · exact Or.inl h43
      · refine Or.inr ?_
        rw [Bool.not_eq_false', Bool.or_eq_true] at hfalse
        rcases hfalse with hc | hc
        · exact absurd (List.elem_iff.mp hc) h43
        · exact List.elem_iff.mp hc
    · intro hor
      rw [Bool.not_eq_false', Bool.or_eq_true]
      rcases hor with hc | hc
      · exact Or.inl (List.elem_iff.mpr hc)
      · exact Or.inr (List.elem_iff.mpr hc)

def mAA : Matcher := fun s => if 2 ≤ s.length then RegRes.found 0 2 0 0 else RegRes.nomatch

def bufAAAA : List Nat := List.replicate 4 97 ++ List.replicate 1010 0

set_option maxRecDepth 400000 in
theorem c7_advancement_and_overlap_selection_witness :
    (freq_scanAux mAA true 1 4 5 (5 + 1) none bufAAAA 0 0 =
      freq_scanAux mAA true 1 4 5 5 none
        ((bufAAAA.set (0 + MAX_WORD_LEN) 0).set (0 + MAX_WORD_LEN) 0)
        (if true then 0 + 0 + 1 else 0 + 2) (0 + 1) ∧
      (frf_overlap [97, 43] = false ↔
        (43 ∈ [97, 43].takeWhile (· ≠ 0) ∨ 42 ∈ [97, 43].takeWhile (· ≠ 0)))) :=
  c7_advancement_and_overlap_selection mAA true 1 4 5 5 none none bufAAAA 0 0 0
    0 2 0 0 [97, 43] (by decide) (by decide) (by decide) (by decide)

/-- C9: every iteration of `freq_scan` reads (and then writes) the buffer at
offset `i + MAX_WORD_LEN` without comparing that offset to the buffer's
extent, so whenever the allocation does not extend past `i + MAX_WORD_LEN`
(in particular, any buffer shorter than `MAX_WORD_LEN + 1` bytes at the first
iteration), the very first access of the iteration is out of bounds: in the
total embedding, where indexing returns an `Option`, the scan takes the
out-of-bounds branch and returns `none`. -/
theorem c9_scan_reads_out_of_bounds (m : Matcher) (fuel hfuel : Nat)
    (oh : Option Hash) (buf : List Nat) (len i nm : Nat) (overlap : Bool)
    (adj : ℚ) (hi : i < len) (hshort : buf.length ≤ i + MAX_WORD_LEN) :
    freq_scanAux m overlap adj len hfuel (fuel + 1) oh buf i nm = none := by
  have hnone : buf[i + MAX_WORD_LEN]? = none := by
    rw [List.getElem?_eq_none_iff]
    exact hshort
  simp only [freq_scanAux, if_pos hi, hnone]

theorem c9_scan_reads_out_of_bounds_witness :
    freq_scanAux mNomatch true 1 1 5 4 none [97] 0 0 = none :=
  c9_scan_reads_out_of_bounds mNomatch 3 5 none [97] 1 0 0 true 1
    (by decide) (by decide)

/-! ### Concrete n-gram inputs -/

/-- The bytes of `"the quick brown fox"`. -/
def tqbfBuf : List Nat :=
  [116, 104, 101, 32, 113, 117, 105, 99, 107, 32, 98, 114, 111, 119, 110, 32,
   102, 111, 120]

/-- The bytes of `"fox "`. -/
def foxSpBuf : List Nat := [102, 111, 120, 32]

set_option maxRecDepth 400000 in
/-- C8 (amended): n-gram extraction with `word_count = 2` over
`"the quick brown fox"` inserts exactly the keys `"the quick"`,
`"quick brown"` and `"brown fox"`, each once (the window slides by one word,
restarting immediately after the first word of the previous window), and the
trailing partial window at `"fox"` is discarded because end-of-buffer cuts
the word-collecting loop short of `word_count` iterations.  (The original
claim's final clause — that a window with fewer than `word_count` words is
*never* inserted — is false in general: see the counterexample.) -/
theorem c8_ngram_amended :
    (find_n_words_core tqbfBuf 19 2 1 5 10 hash_init).map (fun h =>
      (h.count,
       hash_findQ h [116, 104, 101, 32, 113, 117, 105, 99, 107],
       hash_findQ h [113, 117, 105, 99, 107, 32, 98, 114, 111, 119, 110],
       hash_findQ h [98, 114, 111, 119, 110, 32, 102, 111, 120])) =
      some (3, some 1, some 1, some 1) := by decide

set_option maxRecDepth 400000 in
/-- C8 counterexample: over the buffer `"fox "` with `word_count = 2`, the
inner loop completes both iterations — the second word is empty because the
trailing separator run ends at end-of-buffer — and the partial window
`"fox "` (one word and a separator) IS inserted. -/
theorem c8_ngram_counterexample :
    (find_n_words_core foxSpBuf 4 2 1 5 10 hash_init).map (fun h =>
      (h.count, hash_exists h foxSpBuf)) = some (1, true) := by decide
